import Mathlib

/-!
Verification development for the `scripture` commit-message tool
(`src/main.rs`).  Rust strings are embedded as `List Char`; `str::len()`
(a UTF-8 byte count) is embedded as `utf8Len`; fallible operations
(byte slicing that can panic, subprocess and file I/O) are embedded with
`Option`.  Unicode-dependent Rust primitives (`char::is_whitespace`,
`char::is_uppercase`, `str::to_lowercase`) are embedded through Lean's
ASCII `Char.isWhitespace` / `Char.isUpper` / `Char.toLower`; every
concrete input used below stays inside the fragment on which these agree
with the Rust primitives (ASCII, plus already-lowercase letters such as
the character e-acute).  Rust `HashMap`s are embedded as association
lists in first-insertion order: the map iteration order of the source is
unspecified, and every concrete input below has at most one entry, where
the two coincide.
-/

/-- Char list of a string literal (the `List Char` view of Rust string data). -/
def s2l (s : String) : List Char := s.data

/-- UTF-8 byte length of a char list: embeds Rust `str::len()`. -/
def utf8Len (s : List Char) : Nat := (s.map Char.utf8Size).sum

/-- First `n` BYTES of a char list: embeds the Rust byte slice `&s[..n]`.
`none` embeds the panic that the slice raises when `n` overruns the string
or falls inside a multi-byte character. -/
def byteTake : Nat → List Char → Option (List Char)
  | 0, _ => some []
  | _ + 1, [] => none
  | n + 1, c :: cs =>
    if c.utf8Size ≤ n + 1 then
      (byteTake (n + 1 - c.utf8Size) cs).map (fun t => c :: t)
    else none

/-- Drop leading whitespace characters. -/
def dropLeadingWS : List Char → List Char
  | [] => []
  | c :: cs => if c.isWhitespace then dropLeadingWS cs else c :: cs

/-- Embeds Rust `str::trim`. -/
def trim (s : List Char) : List Char :=
  ((dropLeadingWS s.reverse).reverse : List Char) |> dropLeadingWS

/-- Strip a trailing carriage return, as Rust `str::lines` does on each
newline-terminated line. -/
def stripCr (l : List Char) : List Char :=
  if l.getLast? = some '\r' then l.dropLast else l

/-- Accumulator worker for `rustLines`; `acc` holds the current line reversed. -/
def rustLinesAux (acc : List Char) : List Char → List (List Char)
  | [] => if acc.isEmpty then [] else [acc.reverse]
  | c :: cs =>
    if c = '\n' then stripCr acc.reverse :: rustLinesAux [] cs
    else rustLinesAux (c :: acc) cs

/-- Embeds Rust `str::lines`: split at `'\n'`, strip a `'\r'` directly before
each `'\n'`, no empty final line for a trailing newline, and the empty string
has no lines at all. -/
def rustLines (s : List Char) : List (List Char) := rustLinesAux [] s

/-- Accumulator worker for `splitWhitespace`; `cur` holds the current word
reversed. -/
def splitWSAux (cur : List Char) : List Char → List (List Char)
  | [] => if cur.isEmpty then [] else [cur.reverse]
  | c :: cs =>
    if c.isWhitespace then
      if cur.isEmpty then splitWSAux [] cs else cur.reverse :: splitWSAux [] cs
    else splitWSAux (c :: cur) cs

/-- Embeds Rust `str::split_whitespace` (collected to a list): maximal runs of
non-whitespace characters, no empty tokens. -/
def splitWhitespace (s : List Char) : List (List Char) := splitWSAux [] s

/-- Join a list of char lists with a separator: embeds `[String]::join`. -/
def joinSep (sep : List Char) : List (List Char) → List Char
  | [] => []
  | [x] => x
  | x :: y :: xs => x ++ sep ++ joinSep sep (y :: xs)

/-- Embeds Rust `str::contains(pat)` for a string pattern: substring test. -/
def containsSub (hay needle : List Char) : Bool :=
  hay.tails.any (fun t => needle.isPrefixOf t)

/-- Strip the prefix `pat` from `s` while it matches, with explicit fuel so
that the kernel can evaluate it (each successful strip of a non-empty `pat`
shortens `s`, so `s.length + 1` steps always suffice). -/
def trimStartMatchesAux (pat : List Char) : Nat → List Char → List Char
  | 0, s => s
  | fuel + 1, s =>
    if pat.isPrefixOf s ∧ ¬ pat.isEmpty then
      trimStartMatchesAux pat fuel (s.drop pat.length)
    else s

/-- Embeds Rust `str::trim_start_matches(pat)`: repeatedly strip the prefix
`pat` while it matches (the source only uses the non-empty pattern "b/"). -/
def trimStartMatches (pat : List Char) (s : List Char) : List Char :=
  trimStartMatchesAux pat (s.length + 1) s

/-- Embeds Rust `str::to_lowercase` (per-character; exact on the ASCII and
already-lowercase characters used in this development). -/
def rustLower (s : List Char) : List Char := s.map Char.toLower

/-! ## Config (the `Config::default()` of the source)

The source stores the policy in `HashMap`s; only key membership, a
single-entry indicator map and a single-entry verb mapping are ever used, so
the association-list embedding below is order-faithful. -/

/-- Keys of `Config::default().standard_verbs`: `Add`, `Cut`, `Fix`. -/
def standardVerbKeys : List (List Char) := [s2l "Add", s2l "Cut", s2l "Fix"]

/-- `Config::default().indicators`: the single entry `fix ↦ [fix, bug, issue]`. -/
def indicators : List (List Char × List (List Char)) :=
  [(s2l "fix", [s2l "fix", s2l "bug", s2l "issue"])]

/-- `Config::default().verb_mapping`: the single entry `fix ↦ Fix`. -/
def verb_mapping : List (List Char × List Char) :=
  [(s2l "fix", s2l "Fix")]

/-- Association-list lookup (embeds `HashMap::get`). -/
def lookupAssoc (m : List (List Char × List Char)) (k : List Char) :
    Option (List Char) :=
  (m.find? (fun p => p.1 == k)).map Prod.snd

/-! ## CommitMessageVerifier -/

/-- The violation text for a non-standard verb; the comma-joined key list is
taken in the fixed order `Add, Cut, Fix` (the source's `HashMap` key order is
unspecified). -/
def verbViolationMsg : List Char :=
  s2l "Subject must start with standard verb: " ++ joinSep (s2l ", ") standardVerbKeys

/-- The violation text for a body line that is too long, with its 1-based
line number. -/
def lineExceedsMsg (n : Nat) : List Char :=
  s2l "Line " ++ (toString n).data ++ s2l " exceeds 72 characters"

/-- Body-line check of `verify_message`: every line from the third onward
that is non-empty and longer than 72 bytes yields a violation naming the
line number `i + 3`. -/
def bodyLineErrors (lines : List (List Char)) : List (List Char) :=
  (lines.drop 2).enum.filterMap (fun p =>
    if ¬ p.2.isEmpty ∧ utf8Len p.2 > 72 then some (lineExceedsMsg (p.1 + 3))
    else none)

/-- `subject.split_whitespace().next().unwrap_or("")`. -/
def first_word (s : List Char) : List Char := (splitWhitespace s).headD []

/-- Embeds `CommitMessageVerifier::verify_message`.  Note the source's final
line returns `(!errors.is_empty(), errors)` — the boolean is `true` when
violations exist — while the empty-message early return is `(false, [...])`. -/
def verify_message (message : List Char) : Bool × List (List Char) :=
  let lines := rustLines message
  if lines.isEmpty then (false, [s2l "Empty commit message"])
  else
    let subject := lines.headD []
    let errors : List (List Char) :=
      (if utf8Len subject > 50 then [s2l "Subject line exceeds 50 characters"] else []) ++
      (if ¬ standardVerbKeys.contains (first_word subject) then [verbViolationMsg] else []) ++
      (if subject.getLast? = some '.' then [s2l "Subject line ends with a full stop"] else []) ++
      (if ¬ ((subject.head?.map Char.isUpper).getD false) then [s2l "Subject line not capitalised"] else []) ++
      (if ((lines.get? 1).map (fun l => !l.isEmpty)).getD false then [s2l "No blank line between subject and body"] else []) ++
      bodyLineErrors lines
    (!errors.isEmpty, errors)

/-- Embeds `CommitMessageVerifier::verify_file`: the file read is passed in
as `contents` (`none` = I/O failure with error text `ioError`). -/
def verify_file (contents : Option (List Char)) (ioError : List Char) :
    Bool × List (List Char) :=
  match contents with
  | some message => verify_message message
  | none => (false, [s2l "Failed to read file: " ++ ioError])

/-- Exit code of `main`'s `-m <message>` branch: the source runs
`if !valid { exit(1) }` on the boolean returned by `verify_message` and
otherwise returns normally (exit 0). -/
def mainMessageExit (msg : List Char) : Nat :=
  if (verify_message msg).1 then 0 else 1

/-- Exit code of `main`'s `-f <file>` branch, with the file read passed in. -/
def mainFileExit (contents : Option (List Char)) (ioError : List Char) : Nat :=
  if (verify_file contents ioError).1 then 0 else 1

/-! ## GitDiffAnalyzer -/

/-- The `GitChanges` struct of the source; `file_changes` is the `HashMap`
embedded as an association list in first-insertion order. -/
structure GitChanges where
  file_changes : List (List Char × List (List Char))
  breaking_changes : List (List Char)
deriving DecidableEq

/-- `GitChanges::has_changes`. -/
def GitChanges.has_changes (c : GitChanges) : Bool := !c.file_changes.isEmpty

/-- The `breaking_indicators` array of `is_breaking_change`. -/
def breaking_indicators : List (List Char) :=
  [s2l "remove", s2l "delete", s2l "deprecate", s2l "break", s2l "change",
   s2l "rename", s2l "refactor", s2l "drop", s2l "migrate"]

/-- Embeds `GitDiffAnalyzer::is_breaking_change`: case-insensitive substring
match against the keyword set. -/
def is_breaking_change (change : List Char) : Bool :=
  let change_lower := rustLower change
  breaking_indicators.any (fun word => containsSub change_lower word)

/-- `HashMap::entry(file).or_insert_with(Vec::new).push(change)` on the
association-list embedding: append to the file's list, inserting the file at
the end on first sight. -/
def pushChange (m : List (List Char × List (List Char)))
    (file : List Char) (change : List Char) :
    List (List Char × List (List Char)) :=
  match m with
  | [] => [(file, [change])]
  | (f, cs) :: rest =>
    if f = file then (f, cs ++ [change]) :: rest
    else (f, cs) :: pushChange rest file change

/-- The loop state of `analyse_diff`. -/
structure AnalyseState where
  file_changes : List (List Char × List (List Char))
  breaking_changes : List (List Char)
  current_file : Option (List Char)

/-- One iteration of the `analyse_diff` line loop. -/
def analyse_step (st : AnalyseState) (line : List Char) : AnalyseState :=
  if (s2l "diff --git").isPrefixOf line then
    { st with current_file :=
        ((splitWhitespace line).getLast?).map (trimStartMatches (s2l "b/")) }
  else if line.head? = some '+' ∧ ¬ (s2l "+++").isPrefixOf line then
    match st.current_file with
    | some file =>
      let change := trim (line.drop 1)
      if change.isEmpty then st
      else
        { st with
          file_changes := pushChange st.file_changes file change,
          breaking_changes := st.breaking_changes ++
            (if is_breaking_change change then
              [s2l "* Breaking change in " ++ file ++ s2l ":\n  " ++ change]
            else []) }
    | none => st
  else st

/-- Embeds `GitDiffAnalyzer::analyse_diff`. -/
def analyse_diff (diff_output : List Char) : GitChanges :=
  let st := (rustLines diff_output).foldl analyse_step ⟨[], [], none⟩
  ⟨st.file_changes, st.breaking_changes⟩

/-- Embeds `GitDiffAnalyzer::determine_commit_verb`: join all lower-cased
change lines with spaces, return the mapped verb of the first indicator
category one of whose keywords occurs in the joined text, defaulting to
`Add`. -/
def determine_commit_verb
    (file_changes : List (List Char × List (List Char))) : List Char :=
  let all_changes := joinSep [' '] ((file_changes.map Prod.snd).flatten.map rustLower)
  match indicators.find? (fun p => p.2.any (fun w => containsSub all_changes w)) with
  | some p => (lookupAssoc verb_mapping p.1).getD (s2l "Add")
  | none => s2l "Add"

/-! ## Diff collector (`get_git_diff`)

`Command::output()` either fails to spawn (`none`) or yields an exit status
and the raw stdout bytes; `String::from_utf8` then validates the bytes. -/

/-- The part of `std::process::Output` used by the source. -/
structure ProcessOutput where
  status : Int
  stdout : List Nat

/-- Continuation-byte test of UTF-8 validation (`0x80..=0xBF`). -/
def isUtf8Cont (b : Nat) : Bool := decide (0x80 ≤ b ∧ b ≤ 0xBF)

/-- Embeds `String::from_utf8` (strict UTF-8 validation per RFC 3629:
no overlong forms, no surrogates, max `U+10FFFF`). -/
def utf8Decode : List Nat → Option (List Char)
  | [] => some []
  | b :: bs =>
    if b ≤ 0x7F then
      (utf8Decode bs).map (fun cs => Char.ofNat b :: cs)
    else if 0xC2 ≤ b ∧ b ≤ 0xDF then
      match bs with
      | b1 :: bs1 =>
        if isUtf8Cont b1 then
          (utf8Decode bs1).map (fun cs =>
            Char.ofNat ((b - 0xC0) * 0x40 + (b1 - 0x80)) :: cs)
        else none
      | [] => none
    else if 0xE0 ≤ b ∧ b ≤ 0xEF then
      match bs with
      | b1 :: b2 :: bs2 =>
        if (if b = 0xE0 then decide (0xA0 ≤ b1 ∧ b1 ≤ 0xBF)
            else if b = 0xED then decide (0x80 ≤ b1 ∧ b1 ≤ 0x9F)
            else isUtf8Cont b1) && isUtf8Cont b2 then
          (utf8Decode bs2).map (fun cs =>
            Char.ofNat ((b - 0xE0) * 0x1000 + (b1 - 0x80) * 0x40 + (b2 - 0x80)) :: cs)
        else none
      | _ => none
    else if 0xF0 ≤ b ∧ b ≤ 0xF4 then
      match bs with
      | b1 :: b2 :: b3 :: bs3 =>
        if (if b = 0xF0 then decide (0x90 ≤ b1 ∧ b1 ≤ 0xBF)
            else if b = 0xF4 then decide (0x80 ≤ b1 ∧ b1 ≤ 0x8F)
            else isUtf8Cont b1) && isUtf8Cont b2 && isUtf8Cont b3 then
          (utf8Decode bs3).map (fun cs =>
            Char.ofNat ((b - 0xF0) * 0x40000 + (b1 - 0x80) * 0x1000 +
              (b2 - 0x80) * 0x40 + (b3 - 0x80)) :: cs)
        else none
      | _ => none
    else none

/-- Embeds `GitDiffAnalyzer::get_git_diff`, with the result of
`Command::output()` passed in (`none` = spawn failure, e.g. tool not found).
The source applies `.ok()?` to the spawn result and then decodes `stdout`;
the exit status is never inspected. -/
def get_git_diff (spawned : Option ProcessOutput) : Option (List Char) :=
  match spawned with
  | none => none
  | some output => utf8Decode output.stdout

/-! ## CommitMessageGenerator -/

/-- The subject string assembled by `generate_subject_line` before the length
check: `format!("{} {}", verb, description)` where `description` is the
trimmed, lower-cased first change of the first file (default `codebase`). -/
def assembled_subject (changes : GitChanges) : List Char :=
  let verb := determine_commit_verb changes.file_changes
  let significant := changes.file_changes.filterMap (fun fc => fc.2.head?)
  let description :=
    (significant.head?.map (fun s => rustLower (trim s))).getD (s2l "codebase")
  verb ++ [' '] ++ description

/-- Embeds `CommitMessageGenerator::generate_subject_line`.  The source
truncates with the byte slice `&subject[..47]` when `subject.len() > 50`;
`none` embeds the panic of that slice on a non-boundary index. -/
def generate_subject_line (changes : GitChanges) : Option (List Char) :=
  let subject := assembled_subject changes
  if utf8Len subject > 50 then
    (byteTake 47 subject).map (fun t => t ++ s2l "...")
  else some subject

/-! ## Line wrapping

Modelled from the spec: `wrap_body_text` calls `fill(text, 72)` of the
external `textwrap` crate, whose source is not part of this repository; the
spec describes it as "standard greedy word-wrap to a 72-column width,
preserving word boundaries, no hyphenation", with original line breaks
treated as word separators. -/

/-- Greedy fill worker: `cur` is the current line (reversed word list) of
rendered width `len`; a word is appended when `len + 1 + word` fits in
`width`, else the line is closed. -/
def greedyAux (width : Nat) (cur : List (List Char)) (len : Nat) :
    List (List Char) → List (List (List Char))
  | [] => [cur.reverse]
  | w :: ws =>
    if len + 1 + w.length ≤ width then
      greedyAux width (w :: cur) (len + 1 + w.length) ws
    else cur.reverse :: greedyAux width [w] w.length ws

/-- Greedy word wrap of a word list into lines of width `width` (the first
word of a line is always placed, even when longer than `width`). -/
def greedyLines (width : Nat) : List (List Char) → List (List (List Char))
  | [] => []
  | w :: ws => greedyAux width [w] w.length ws

/-- Render wrapped lines: words joined by single spaces, lines by newlines. -/
def renderLines (ls : List (List (List Char))) : List Char :=
  joinSep ['\n'] (ls.map (joinSep [' ']))

/-- Modelled from the spec: `textwrap::fill(text, width)` as standard greedy
word-wrap. -/
def fillText (width : Nat) (text : List Char) : List Char :=
  renderLines (greedyLines width (splitWhitespace text))

/-- Embeds `CommitMessageGenerator::wrap_body_text` (via the spec-modelled
`fillText`). -/
def wrap_body_text (text : List Char) : List Char := fillText 72 text

/-! ## Concrete inputs used by individual claims -/

/-- A change text of 21 e-acute characters (2 UTF-8 bytes each) followed by
30 `x`: its assembled subject exceeds 50 characters AND 50 bytes, with byte
index 47 on a character boundary. -/
def multiByteChange : List Char := List.replicate 21 'é' ++ List.replicate 30 'x'

/-- A `GitChanges` whose only change is `multiByteChange`. -/
def multiByteChanges : GitChanges := ⟨[(s2l "f", [multiByteChange])], []⟩

/-- A change text of 42 `a`, one e-acute, then 4 `a`: its assembled subject
is 52 bytes long and byte index 47 falls INSIDE the two-byte e-acute. -/
def midCharChange : List Char := List.replicate 42 'a' ++ ['é'] ++ List.replicate 4 'a'

/-- A `GitChanges` whose only change is `midCharChange`. -/
def midCharChanges : GitChanges := ⟨[(s2l "f", [midCharChange])], []⟩

/-- A one-line message of 50 characters (one e-acute and 49 `a`) whose UTF-8
byte length is 51. -/
def fiftyCharSubject : List Char := 'é' :: List.replicate 49 'a'

/-- The two-line diff of the breaking-change scenario. -/
def xDiff : List Char := s2l "diff --git a/x.txt b/x.txt\n+remove old helper"

/-! ## Helper lemmas -/

theorem utf8Len_nil : utf8Len [] = 0 := rfl

theorem utf8Len_cons (c : Char) (s : List Char) :
    utf8Len (c :: s) = c.utf8Size + utf8Len s := by
  simp [utf8Len]

theorem utf8Len_append (s t : List Char) :
    utf8Len (s ++ t) = utf8Len s + utf8Len t := by
  simp [utf8Len]

theorem rustLinesAux_ne_nil : ∀ (s acc : List Char),
    ¬ acc.isEmpty = true ∨ s ≠ [] → rustLinesAux acc s ≠ []
  | [], acc, h => by
    simp only [rustLinesAux]
    rcases h with h | h
    · rw [if_neg h]; simp
    · exact absurd rfl h
  | c :: cs, acc, _ => by
    simp only [rustLinesAux]
    by_cases hc : c = '\n'
    · rw [if_pos hc]; simp
    · rw [if_neg hc]
      exact rustLinesAux_ne_nil cs (c :: acc) (Or.inl (by simp))

theorem rustLines_ne_nil (msg : List Char) (h : msg ≠ []) : rustLines msg ≠ [] :=
  rustLinesAux_ne_nil msg [] (Or.inr h)

theorem mem_ite_singleton {α : Type} (c : Prop) [Decidable c] (a v : α) :
    v ∈ (if c then [a] else []) ↔ c ∧ v = a := by
  split
  · simp [*]
  · simp [*]

theorem verify_message_fst (msg : List Char) (h : rustLines msg ≠ []) :
    (verify_message msg).1 = !(verify_message msg).2.isEmpty := by
  cases hl : rustLines msg with
  | nil => exact absurd hl h
  | cons a l =>
    simp only [verify_message, hl]
    rfl

theorem verify_message_snd (msg : List Char) (h : rustLines msg ≠ []) :
    (verify_message msg).2 =
      (if utf8Len ((rustLines msg).headD []) > 50 then [s2l "Subject line exceeds 50 characters"] else []) ++
      (if ¬ standardVerbKeys.contains (first_word ((rustLines msg).headD [])) then [verbViolationMsg] else []) ++
      (if ((rustLines msg).headD []).getLast? = some '.' then [s2l "Subject line ends with a full stop"] else []) ++
      (if ¬ ((((rustLines msg).headD []).head?.map Char.isUpper).getD false) then [s2l "Subject line not capitalised"] else []) ++
      (if (((rustLines msg).get? 1).map (fun l => !l.isEmpty)).getD false then [s2l "No blank line between subject and body"] else []) ++
      bodyLineErrors (rustLines msg) := by
  cases hl : rustLines msg with
  | nil => exact absurd hl h
  | cons a l =>
    simp only [verify_message, hl]
    rfl

theorem bodyLineErrors_shape {lines : List (List Char)} {v : List Char}
    (h : v ∈ bodyLineErrors lines) : ∃ n, v = lineExceedsMsg n := by
  simp only [bodyLineErrors, List.mem_filterMap] at h
  obtain ⟨p, _, hp⟩ := h
  split at hp
  · exact ⟨p.1 + 3, (Option.some.inj hp).symm⟩
  · exact absurd hp (by simp)

theorem lineExceedsMsg_head (n : Nat) : (lineExceedsMsg n).head? = some 'L' := by
  rw [lineExceedsMsg, show s2l "Line " = 'L' :: s2l "ine " from rfl]
  rfl

theorem subjLen_not_mem_body (lines : List (List Char)) :
    s2l "Subject line exceeds 50 characters" ∉ bodyLineErrors lines := by
  intro hmem
  obtain ⟨n, hn⟩ := bodyLineErrors_shape hmem
  have h1 := lineExceedsMsg_head n
  rw [← hn] at h1
  exact absurd h1 (by decide)

theorem byteTake_utf8Len : ∀ (s : List Char) (n : Nat) (t : List Char),
    byteTake n s = some t → utf8Len t = n
  | _, 0, t => by
    intro h
    simp only [byteTake] at h
    rw [← Option.some.inj h]
    rfl
  | [], n + 1, t => by
    intro h
    simp [byteTake] at h
  | c :: cs, n + 1, t => by
    intro h
    simp only [byteTake] at h
    split at h
    case isTrue hsz =>
      rw [Option.map_eq_some'] at h
      obtain ⟨t', ht', rfl⟩ := h
      have := byteTake_utf8Len cs (n + 1 - c.utf8Size) t' ht'
      rw [utf8Len_cons, this]
      omega
    case isFalse => exact absurd h (by simp)

theorem byteTake_ascii : ∀ (s : List Char), (∀ c ∈ s, c.utf8Size = 1) →
    ∀ n, n ≤ s.length → byteTake n s = some (s.take n)
  | _, _, 0, _ => by simp [byteTake]
  | [], _, n + 1, hn => by simp at hn
  | c :: cs, hs, n + 1, hn => by
    have hc : c.utf8Size = 1 := hs c (by simp)
    simp only [byteTake, hc]
    rw [if_pos (by omega)]
    have h1 : n + 1 - 1 = n := by omega
    rw [h1, byteTake_ascii cs (fun x hx => hs x (by simp [hx])) n (by simpa using hn)]
    rfl

theorem utf8Len_ascii : ∀ (s : List Char), (∀ c ∈ s, c.utf8Size = 1) →
    utf8Len s = s.length
  | [], _ => rfl
  | c :: cs, hs => by
    rw [utf8Len_cons, hs c (by simp), utf8Len_ascii cs (fun x hx => hs x (by simp [hx]))]
    simp [Nat.add_comm]

theorem splitWSAux_nil_emit (cur : List Char) (h : cur ≠ []) :
    splitWSAux cur [] = [cur.reverse] := by
  cases cur with
  | nil => exact absurd rfl h
  | cons a l => rfl

theorem splitWSAux_ws_head (c : Char) (cs : List Char) (hc : c.isWhitespace = true) :
    splitWSAux [] (c :: cs) = splitWSAux [] cs := by
  simp [splitWSAux, hc]

theorem splitWSAux_ws_emit (cur : List Char) (hcur : cur ≠ []) (c : Char) (cs : List Char)
    (hc : c.isWhitespace = true) :
    splitWSAux cur (c :: cs) = cur.reverse :: splitWSAux [] cs := by
  cases cur with
  | nil => exact absurd rfl hcur
  | cons a l => simp [splitWSAux, hc]

theorem splitWSAux_word : ∀ (w : List Char), (∀ c ∈ w, ¬ c.isWhitespace = true) →
    ∀ (cur rest : List Char), splitWSAux cur (w ++ rest) = splitWSAux (w.reverse ++ cur) rest
  | [], _, cur, rest => by simp
  | a :: w, hw, cur, rest => by
    have ha : ¬ a.isWhitespace = true := hw a (by simp)
    simp only [List.cons_append, splitWSAux]
    rw [if_neg ha]
    simp only [List.append_eq]
    rw [splitWSAux_word w (fun c hc => hw c (by simp [hc])) (a :: cur) rest]
    simp [List.append_assoc]

theorem splitWSAux_props : ∀ (s cur : List Char), (∀ c ∈ cur, ¬ c.isWhitespace = true) →
    ∀ w ∈ splitWSAux cur s, w ≠ [] ∧ ∀ c ∈ w, ¬ c.isWhitespace = true
  | [], cur, hcur, w, hw => by
    cases cur with
    | nil => simp [splitWSAux] at hw
    | cons a l =>
      rw [splitWSAux_nil_emit (a :: l) (by simp)] at hw
      simp only [List.mem_singleton] at hw
      subst hw
      refine ⟨by simp, ?_⟩
      intro c hc
      exact hcur c (List.mem_reverse.mp hc)
  | c :: cs, cur, hcur, w, hw => by
    by_cases hc : c.isWhitespace = true
    · cases cur with
      | nil =>
        rw [splitWSAux_ws_head c cs hc] at hw
        exact splitWSAux_props cs [] (by simp) w hw
      | cons a l =>
        rw [splitWSAux_ws_emit (a :: l) (by simp) c cs hc] at hw
        rcases List.mem_cons.mp hw with rfl | hw'
        · exact ⟨by simp, fun x hx => hcur x (List.mem_reverse.mp hx)⟩
        · exact splitWSAux_props cs [] (by simp) w hw'
    · simp only [splitWSAux] at hw
      rw [if_neg hc] at hw
      refine splitWSAux_props cs (c :: cur) ?_ w hw
      intro x hx
      rcases List.mem_cons.mp hx with rfl | hx'
      · exact hc
      · exact hcur x hx'

theorem splitWSAux_joinLine (rest : List Char)
    (hrest : rest = [] ∨ ∃ c cs, rest = c :: cs ∧ c.isWhitespace = true) :
    ∀ (line : List (List Char)), line ≠ [] →
      (∀ w ∈ line, w ≠ [] ∧ ∀ c ∈ w, ¬ c.isWhitespace = true) →
      splitWSAux [] (joinSep [' '] line ++ rest) = line ++ splitWSAux [] rest
  | [], hne, _ => absurd rfl hne
  | [w], _, hline => by
    have hw := hline w (by simp)
    simp only [joinSep]
    rw [splitWSAux_word w hw.2 [] rest, List.append_nil]
    rcases hrest with rfl | ⟨c, cs, rfl, hc⟩
    · rw [splitWSAux_nil_emit w.reverse (by simpa using hw.1)]
      simp [splitWSAux]
    · rw [splitWSAux_ws_emit w.reverse (by simpa using hw.1) c cs hc]
      rw [splitWSAux_ws_head c cs hc]
      simp
  | w :: y :: line, _, hline => by
    have hw := hline w (by simp)
    have hjoin : joinSep [' '] (w :: y :: line) =
        w ++ (' ' :: joinSep [' '] (y :: line)) := by
      simp [joinSep, List.append_assoc]
    rw [hjoin, List.append_assoc]
    rw [show (' ' :: joinSep [' '] (y :: line)) ++ rest =
        ' ' :: (joinSep [' '] (y :: line) ++ rest) from rfl]
    rw [splitWSAux_word w hw.2 [] _, List.append_nil]
    rw [splitWSAux_ws_emit w.reverse (by simpa using hw.1) ' ' _ (by decide)]
    rw [splitWSAux_joinLine rest hrest (y :: line) (by simp)
      (fun x hx => hline x (by simp [hx]))]
    simp

theorem splitWS_render : ∀ (L : List (List (List Char))),
    (∀ line ∈ L, line ≠ [] ∧ ∀ w ∈ line, w ≠ [] ∧ ∀ c ∈ w, ¬ c.isWhitespace = true) →
    splitWhitespace (renderLines L) = L.flatten
  | [], _ => by simp [renderLines, joinSep, splitWhitespace, splitWSAux]
  | [line], hL => by
    have h := hL line (by simp)
    have key := splitWSAux_joinLine [] (Or.inl rfl) line h.1 h.2
    simp only [List.append_nil] at key
    simp only [renderLines, List.map_cons, List.map_nil, joinSep, splitWhitespace]
    rw [key]
    simp [splitWSAux]
  | line :: y :: L, hL => by
    have h := hL line (by simp)
    have hjoin : renderLines (line :: y :: L) =
        joinSep [' '] line ++ ('\n' :: renderLines (y :: L)) := by
      simp [renderLines, joinSep, List.append_assoc]
    rw [splitWhitespace, hjoin]
    rw [splitWSAux_joinLine ('\n' :: renderLines (y :: L))
      (Or.inr ⟨'\n', renderLines (y :: L), rfl, by decide⟩) line h.1 h.2]
    rw [splitWSAux_ws_head '\n' _ (by decide)]
    have key := splitWS_render (y :: L) (fun x hx => hL x (by simp [hx]))
    rw [splitWhitespace] at key
    rw [key]
    simp

theorem greedyAux_flatten (width : Nat) : ∀ (ws cur : List (List Char)) (len : Nat),
    (greedyAux width cur len ws).flatten = cur.reverse ++ ws
  | [], cur, len => by simp [greedyAux]
  | w :: ws, cur, len => by
    simp only [greedyAux]
    split
    · rw [greedyAux_flatten width ws (w :: cur) _]
      simp
    · simp only [List.flatten_cons]
      rw [greedyAux_flatten width ws [w] _]
      simp

theorem greedyAux_ne_nil (width : Nat) : ∀ (ws cur : List (List Char)) (len : Nat),
    cur ≠ [] → ∀ l ∈ greedyAux width cur len ws, l ≠ []
  | [], cur, len, hcur, l, hl => by
    simp only [greedyAux, List.mem_singleton] at hl
    subst hl
    simpa using hcur
  | w :: ws, cur, len, hcur, l, hl => by
    simp only [greedyAux] at hl
    split at hl
    · exact greedyAux_ne_nil width ws (w :: cur) _ (by simp) l hl
    · rcases List.mem_cons.mp hl with rfl | hl'
      · simpa using hcur
      · exact greedyAux_ne_nil width ws [w] _ (by simp) l hl'

theorem wrap_words_preserved (p : List Char) :
    splitWhitespace (wrap_body_text p) = splitWhitespace p := by
  have hprops := splitWSAux_props p [] (by simp)
  show splitWhitespace (renderLines (greedyLines 72 (splitWhitespace p))) = splitWhitespace p
  cases hws : splitWhitespace p with
  | nil => simp [greedyLines, renderLines, joinSep, splitWhitespace, splitWSAux]
  | cons w ws =>
    have hws' : splitWSAux [] p = w :: ws := hws
    simp only [greedyLines]
    rw [splitWS_render (greedyAux 72 [w] w.length ws) ?props]
    · rw [greedyAux_flatten 72 ws [w] w.length]
      simp
    case props =>
      intro line hline
      have hlne : line ≠ [] := greedyAux_ne_nil 72 ws [w] w.length (by simp) line hline
      refine ⟨hlne, ?_⟩
      intro x hx
      have hxmem : x ∈ (greedyAux 72 [w] w.length ws).flatten :=
        List.mem_flatten.mpr ⟨line, hline, hx⟩
      rw [greedyAux_flatten 72 ws [w] w.length] at hxmem
      simp only [List.reverse_singleton, List.singleton_append] at hxmem
      refine hprops x ?_
      rw [hws']
      exact hxmem

/-! ## Claims -/

/-- Claim C1 (code bug): the spec says the `-m`/`-f` branches exit 1 exactly
when the message violates at least one rule, but `verify_message` returns
`!errors.is_empty()` as its boolean and `main` exits 1 when that boolean is
FALSE: the message `fix bug.` carries three violations yet exits 0, while the
fully compliant message `Add feature` carries none yet exits 1 (and `main`
logs the opposite of what happened in both cases). -/
theorem C1_exit_polarity_evaluation :
    (verify_message (s2l "fix bug.")).2 ≠ [] ∧ mainMessageExit (s2l "fix bug.") = 0 ∧
    (verify_message (s2l "Add feature")).2 = [] ∧
    mainMessageExit (s2l "Add feature") = 1 := by decide

/-- Claim C2 counterexample: verifying the empty string returns the boolean
FALSE together with the violation `Empty commit message`, not the boolean
true that the claim asserts. -/
theorem C2_counterexample :
    (verify_message []).1 = false ∧
    (verify_message []).2 = [s2l "Empty commit message"] := by decide

/-- Claim C2 (amended): for every NON-EMPTY message the boolean returned by
the verifier equals (violations list non-empty); verifying the empty string
returns the boolean false together with exactly the violation
`Empty commit message`, and the file variant also returns false together
with a single violation when the file cannot be read. -/
theorem C2_amended_polarity :
    (∀ msg : List Char, msg ≠ [] →
        (verify_message msg).1 = !(verify_message msg).2.isEmpty) ∧
    verify_message [] = (false, [s2l "Empty commit message"]) ∧
    (∀ e : List Char, verify_file none e = (false, [s2l "Failed to read file: " ++ e])) := by
  refine ⟨fun msg h => verify_message_fst msg (rustLines_ne_nil msg h), by decide, fun e => rfl⟩

/-- Witness for C2: the non-empty message `fix bug.` instantiates the
universally quantified conjunct. -/
theorem C2_amended_polarity_witness :
    s2l "fix bug." ≠ [] ∧
    (verify_message (s2l "fix bug.")).1 = !(verify_message (s2l "fix bug.")).2.isEmpty :=
  ⟨by decide, C2_amended_polarity.1 (s2l "fix bug.") (by decide)⟩

/-- Claim C3 counterexample: a `GitChanges` whose assembled subject has 55
characters (so it exceeds 50 characters); the generated subject is NOT the
first 47 characters followed by `...`, because the source truncates at byte
index 47, not character index 47. -/
theorem C3_counterexample :
    (assembled_subject multiByteChanges).length > 50 ∧
    generate_subject_line multiByteChanges ≠
      some ((assembled_subject multiByteChanges).take 47 ++ s2l "...") := by decide

/-- Claim C3 (amended): whenever `generate_subject_line` returns a value,
that value is at most 50 BYTES long, and if the assembled subject exceeds 50
bytes the value is the first 47 BYTES of the subject followed by `...`. -/
theorem C3_amended_truncation (changes : GitChanges) (s : List Char)
    (h : generate_subject_line changes = some s) :
    utf8Len s ≤ 50 ∧
      (utf8Len (assembled_subject changes) > 50 →
        ∃ t, byteTake 47 (assembled_subject changes) = some t ∧ s = t ++ s2l "...") := by
  simp only [generate_subject_line] at h
  split at h
  case isTrue h50 =>
    rw [Option.map_eq_some'] at h
    obtain ⟨t, ht, rfl⟩ := h
    have hlen : utf8Len t = 47 := byteTake_utf8Len _ _ _ ht
    refine ⟨?_, fun _ => ⟨t, ht, rfl⟩⟩
    rw [utf8Len_append, hlen]
    have h3 : utf8Len (s2l "...") = 3 := by decide
    omega
  case isFalse h50 =>
    rw [← Option.some.inj h]
    exact ⟨by omega, fun hgt => absurd hgt h50⟩

/-- Witness for C3: a 55-`b` change produces a truncated 50-byte subject. -/
theorem C3_amended_truncation_witness :
    generate_subject_line ⟨[(s2l "g", [List.replicate 55 'b'])], []⟩ =
      some (s2l "Add " ++ List.replicate 43 'b' ++ s2l "...") ∧
    utf8Len (s2l "Add " ++ List.replicate 43 'b' ++ s2l "...") ≤ 50 :=
  ⟨by decide, (C3_amended_truncation ⟨[(s2l "g", [List.replicate 55 'b'])], []⟩ _ (by decide)).1⟩

/-- Claim C4 counterexample: a `GitChanges` whose assembled subject is 52
bytes long with byte index 47 inside a two-byte character; the byte slice
`&subject[..47]` of the source panics there, embedded as `none`. -/
theorem C4_counterexample :
    utf8Len (assembled_subject midCharChanges) > 50 ∧
    generate_subject_line midCharChanges = none := by decide

/-- Claim C4 (amended): `generate_subject_line` returns without panicking on
every `GitChanges` whose assembled subject consists of single-byte (ASCII)
characters; inputs that put byte index 47 inside a multi-byte character make
the truncation slice panic. -/
theorem C4_amended_ascii_total (changes : GitChanges)
    (h : ∀ c ∈ assembled_subject changes, c.utf8Size = 1) :
    (generate_subject_line changes).isSome = true := by
  simp only [generate_subject_line]
  split
  case isTrue h50 =>
    have hlen := utf8Len_ascii _ h
    rw [byteTake_ascii _ h 47 (by omega)]
    rfl
  case isFalse => rfl

/-- Witness for C4: a 60-`c` ASCII change satisfies the hypothesis and the
subject is generated. -/
theorem C4_amended_ascii_total_witness :
    (∀ c ∈ assembled_subject ⟨[(s2l "g", [List.replicate 60 'c'])], []⟩, c.utf8Size = 1) ∧
    (generate_subject_line ⟨[(s2l "g", [List.replicate 60 'c'])], []⟩).isSome = true :=
  ⟨by decide, C4_amended_ascii_total ⟨[(s2l "g", [List.replicate 60 'c'])], []⟩ (by decide)⟩

/-- Claim C5 counterexample: a spawn result with non-zero exit status 1 and
empty (valid UTF-8) stdout yields a PRESENT value, not the absent value the
claim asserts for a non-zero exit of the tool. -/
theorem C5_counterexample :
    (1 : Int) ≠ 0 ∧ get_git_diff (some ⟨1, []⟩) = some [] := by decide

/-- Claim C5 (amended): the diff collector returns the absent value exactly
on spawn failure (e.g. tool not found) or non-UTF-8 stdout; the exit status
of the tool is never inspected — the decoded stdout is returned whatever the
status — and no cause is distinguished to the caller. -/
theorem C5_amended_behaviour :
    get_git_diff none = none ∧
    (∀ output : ProcessOutput, get_git_diff (some output) = utf8Decode output.stdout) ∧
    (∀ status : Int, get_git_diff (some ⟨status, [0xFF]⟩) = none) :=
  ⟨rfl, fun _ => rfl, fun _ => rfl⟩

/-- Claim C6 counterexample: a one-line message of exactly 50 CHARACTERS (one
two-byte character and 49 ASCII) DOES produce the subject-length violation,
because the source compares `subject.len()` — a byte count of 51 here —
against 50. -/
theorem C6_counterexample :
    ((rustLines fiftyCharSubject).headD []).length = 50 ∧
    s2l "Subject line exceeds 50 characters" ∈ (verify_message fiftyCharSubject).2 := by decide

/-- Claim C6 (amended): for every non-empty message, the subject-length
violation is produced exactly when the first line exceeds 50 BYTES; in
particular a 50-byte first line passes the length rule and a 51-byte first
line fails it. -/
theorem C6_amended_length_rule (msg : List Char) (h : rustLines msg ≠ []) :
    utf8Len ((rustLines msg).headD []) > 50 ↔
      s2l "Subject line exceeds 50 characters" ∈ (verify_message msg).2 := by
  rw [verify_message_snd msg h]
  have d1 : s2l "Subject line exceeds 50 characters" ≠ verbViolationMsg := by decide
  have d2 : s2l "Subject line exceeds 50 characters" ≠ s2l "Subject line ends with a full stop" := by decide
  have d3 : s2l "Subject line exceeds 50 characters" ≠ s2l "Subject line not capitalised" := by decide
  have d4 : s2l "Subject line exceeds 50 characters" ≠ s2l "No blank line between subject and body" := by decide
  simp only [List.mem_append, mem_ite_singleton]
  constructor
  · intro h50
    exact Or.inl (Or.inl (Or.inl (Or.inl (Or.inl ⟨h50, trivial⟩))))
  · intro hmem
    rcases hmem with ((((⟨h50, _⟩ | ⟨_, he⟩) | ⟨_, he⟩) | ⟨_, he⟩) | ⟨_, he⟩) | hb
    exacts [h50, absurd he d1, absurd he d2, absurd he d3, absurd he d4,
      absurd hb (subjLen_not_mem_body _)]

/-- Witness for C6: a 51-byte ASCII first line instantiates the theorem. -/
theorem C6_amended_length_rule_witness :
    (rustLines ('x' :: List.replicate 50 'a') ≠ []) ∧
    (utf8Len ((rustLines ('x' :: List.replicate 50 'a')).headD []) > 50 ↔
      s2l "Subject line exceeds 50 characters" ∈
        (verify_message ('x' :: List.replicate 50 'a')).2) :=
  ⟨by decide, C6_amended_length_rule ('x' :: List.replicate 50 'a') (by decide)⟩

/-- Claim C7 counterexample: the message `A\nB` has a non-empty second line,
yet the violation list does not contain the string the claim names — the
source's violation text is `No blank line between subject and body`. -/
theorem C7_counterexample :
    (rustLines (s2l "A\nB")).get? 1 = some ['B'] ∧
    s2l "missing blank line between subject and body" ∉
      (verify_message (s2l "A\nB")).2 := by decide

/-- Claim C7 (amended): for every message whose second line exists and is
non-empty, verification yields the violation
`No blank line between subject and body`, regardless of the rest of the
message's content. -/
theorem C7_amended_blank_line (msg : List Char) (l : List Char)
    (h : (rustLines msg).get? 1 = some l) (hne : l ≠ []) :
    s2l "No blank line between subject and body" ∈ (verify_message msg).2 := by
  have hnn : rustLines msg ≠ [] := by
    intro he
    rw [he] at h
    simp at h
  rw [verify_message_snd msg hnn]
  have hcond : (((rustLines msg).get? 1).map (fun l => !l.isEmpty)).getD false = true := by
    rw [h]
    simp [hne]
  simp only [List.mem_append, mem_ite_singleton]
  exact Or.inl (Or.inr ⟨hcond, trivial⟩)

/-- Witness for C7: the message `A\nB` instantiates the theorem. -/
theorem C7_amended_blank_line_witness :
    (rustLines (s2l "A\nB")).get? 1 = some ['B'] ∧ (['B'] : List Char) ≠ [] ∧
    s2l "No blank line between subject and body" ∈ (verify_message (s2l "A\nB")).2 :=
  ⟨by decide, by decide, C7_amended_blank_line (s2l "A\nB") ['B'] (by decide) (by decide)⟩

/-- Claim C8: verifying the single-line message `fix bug.` yields exactly the
three violations non-standard verb, trailing full stop and not capitalised,
in the source's push order, together with the has-errors boolean `true`. -/
theorem C8_fix_bug_scenario :
    verify_message (s2l "fix bug.") =
      (true, [verbViolationMsg, s2l "Subject line ends with a full stop",
              s2l "Subject line not capitalised"]) ∧
    (verify_message (s2l "fix bug.")).2.length = 3 := by decide

/-- Claim C9: analysing the two-line diff `diff --git a/x.txt b/x.txt` +
`+remove old helper` yields exactly one breaking-change entry, and that entry
contains both the file name `x.txt` and the text `remove old helper`
(flagged through the keyword `remove`). -/
theorem C9_breaking_scenario :
    (analyse_diff xDiff).breaking_changes =
      [s2l "* Breaking change in x.txt:\n  remove old helper"] ∧
    containsSub (s2l "* Breaking change in x.txt:\n  remove old helper") (s2l "x.txt") = true ∧
    containsSub (s2l "* Breaking change in x.txt:\n  remove old helper") (s2l "remove old helper") = true ∧
    (analyse_diff xDiff).file_changes = [(s2l "x.txt", [s2l "remove old helper"])] := by decide

/-- Claim C10: wrapping is idempotent.  For a paragraph all of whose lines
are at most 72 columns, the wrapped text has exactly the original word
sequence (the original line breaks collapse to the same words), and applying
the wrapping a second time reproduces the wrapped text unchanged. -/
theorem C10_wrap_idempotent (p : List Char)
    (h : ∀ l ∈ rustLines p, l.length ≤ 72) :
    splitWhitespace (wrap_body_text p) = splitWhitespace p ∧
    wrap_body_text (wrap_body_text p) = wrap_body_text p := by
  refine ⟨wrap_words_preserved p, ?_⟩
  show renderLines (greedyLines 72 (splitWhitespace (wrap_body_text p))) = wrap_body_text p
  rw [wrap_words_preserved p]
  rfl

/-- Witness for C10: a two-line paragraph with short lines instantiates the
theorem. -/
theorem C10_wrap_idempotent_witness :
    (∀ l ∈ rustLines (s2l "Fix issue with module loading\nAdd tests"), l.length ≤ 72) ∧
    splitWhitespace (wrap_body_text (s2l "Fix issue with module loading\nAdd tests")) =
      splitWhitespace (s2l "Fix issue with module loading\nAdd tests") ∧
    wrap_body_text (wrap_body_text (s2l "Fix issue with module loading\nAdd tests")) =
      wrap_body_text (s2l "Fix issue with module loading\nAdd tests") :=
  ⟨by decide, C10_wrap_idempotent (s2l "Fix issue with module loading\nAdd tests") (by decide)⟩
